import Mathlib

/-!
Verification of the least-squares flight-price utilities
(`least_squares_utils.py`).

The numeric core is embedded over `ℚ` (exact arithmetic standing in for the
double precision floats of the source): the residual-evaluator loop of
`plot_best_fit_line`, the `np.polyfit(x, y, 1)` call of
`plot_least_squares_fit`, and the plotting state threaded through all three
top-level functions.  Sample data is a pair of equal-length columns
(`flightTimeInHours`, `totalFare`), exactly the two columns the source reads.
-/

namespace FlightFit

/-- Residual-evaluator loop of `plot_best_fit_line` (source lines 81–91):
`total_squared_error = 0`, then for each `(x, y)` in
`zip(flights_df["flightTimeInHours"], flights_df["totalFare"])` it adds
`(slope * x + intercept - y) ** 2`. -/
def residualTotal (xs ys : List ℚ) (slope intercept : ℚ) : ℚ :=
  (xs.zip ys).foldl (fun total p => total + (slope * p.1 + intercept - p.2) ^ 2) 0

/-- Numeric result of `plot_best_fit_line` (source lines 50–98): the total
starts at `0`, the accumulation loop runs only under `error_check`, and the
total is returned. -/
def plot_best_fit_line (xs ys : List ℚ) (slope intercept : ℚ)
    (error_check : Bool) : ℚ :=
  if error_check then residualTotal xs ys slope intercept else 0

/-- Model of `numpy.polyfit(x, y, 1)` (the library call on source line 121) in
exact arithmetic.  `polyfit` raises `TypeError` on an empty `x` or on
mismatched lengths (modelled as `none`).  Otherwise it scales each column of
the Vandermonde matrix `[x, 1]` to unit norm and solves with
`numpy.linalg.lstsq`, which returns the minimum-norm least-squares solution.
When the design matrix has full rank (denominator `n·Σx² − (Σx)² ≠ 0`) that is
the unique ordinary-least-squares solution.  When the rank is deficient (all
`x` equal some `a`), `polyfit` emits a `RankWarning` but still returns
coefficients: for `a ≠ 0` the scaled minimum-norm solution
`slope = ȳ/(2a)`, `intercept = ȳ/2`; for `a = 0` the zero scale column makes
the scaled matrix non-finite and `lstsq` raises `LinAlgError` (`none`). -/
def polyfit1 (xs ys : List ℚ) : Option (ℚ × ℚ) :=
  if xs.length = 0 ∨ xs.length ≠ ys.length then none
  else
    let n : ℚ := xs.length
    let sx := xs.sum
    let sy := ys.sum
    let sxx := (xs.map (fun x => x ^ 2)).sum
    let sxy := ((xs.zip ys).map (fun p => p.1 * p.2)).sum
    let d := n * sxx - sx ^ 2
    if d ≠ 0 then
      let slope := (n * sxy - sx * sy) / d
      some (slope, (sy - slope * sx) / n)
    else if sx ≠ 0 then
      let a := sx / n
      some ((sy / n) / (2 * a), (sy / n) / 2)
    else none

/-- Least-squares denominator `n·Σx² − (Σx)²` for a column of x values. -/
def lsDenom (xs : List ℚ) : ℚ :=
  (xs.length : ℚ) * (xs.map (fun x => x ^ 2)).sum - xs.sum ^ 2

/-- Ordinary least squares closed form, written from the spec (§4.2):
slope = (n·Σxy − Σx·Σy) / (n·Σx² − (Σx)²), intercept = (Σy − slope·Σx) / n. -/
def olsClosedForm (xs ys : List ℚ) : ℚ × ℚ :=
  let n : ℚ := xs.length
  let slope := (n * ((xs.zip ys).map (fun p => p.1 * p.2)).sum - xs.sum * ys.sum) /
    (n * (xs.map (fun x => x ^ 2)).sum - xs.sum ^ 2)
  (slope, (ys.sum - slope * xs.sum) / n)

/-! ### Stateful model: the matplotlib axis as an accumulating command list

The three top-level functions mutate only the axis object (scatter, plot,
vlines, text, label/limit setters); the DataFrame is only ever read.  The axis
is modelled as a list of draw commands, the DataFrame as the two columns the
source extracts from it. -/

/-- One drawing/styling call issued on the axis. -/
inductive DrawCmd where
  | scatter (x y : List ℚ)
  | lineSeg (x y : List ℚ)
  | vlines (x ymin ymax : ℚ)
  | textNote (v : ℚ)
  | textEquation (slope intercept : ℚ)
  | xlabel
  | ylabel
  | tickParams
  | ylim (a b : ℚ)
  | xlim (a b : ℚ)
  deriving DecidableEq

/-- The mutable world the source touches: the two DataFrame columns it reads
and the axis it draws on. -/
structure PlotState where
  flightTimeInHours : List ℚ
  totalFare : List ℚ
  axisCmds : List DrawCmd
  deriving DecidableEq

/-- The two DataFrame columns of a state. -/
def dataCols (st : PlotState) : List ℚ × List ℚ :=
  (st.flightTimeInHours, st.totalFare)

/-- Effect of `plot_flights_scatter_data` (source lines 6–48): reads the two
columns, draws the scatter, sets labels, tick parameters and axis limits. -/
def plot_flights_scatter_data (st : PlotState) : PlotState :=
  { st with axisCmds := st.axisCmds ++
      [DrawCmd.scatter st.flightTimeInHours st.totalFare, DrawCmd.xlabel,
        DrawCmd.ylabel, DrawCmd.tickParams, DrawCmd.ylim 0 365,
        DrawCmd.xlim 0 (25 / 2)] }

/-- Full effect of `plot_best_fit_line` (source lines 50–98): draws the
candidate line over x ∈ [0, 12.5]; under `error_check` the loop accumulates
the squared vertical offsets while drawing a vline per point; under
`show_error_on_plot` it writes the total as text.  Returns the new state and
the returned `total_squared_error`. -/
def plot_best_fit_line_full (st : PlotState) (slope intercept : ℚ)
    (error_check show_error_on_plot : Bool) : PlotState × ℚ :=
  let cmds0 := st.axisCmds ++
    [DrawCmd.lineSeg [0, 25 / 2] [slope * 0 + intercept, slope * (25 / 2) + intercept]]
  let acc :=
    if error_check then
      (st.flightTimeInHours.zip st.totalFare).foldl
        (fun acc p =>
          (acc.1 ++ [DrawCmd.vlines p.1 p.2 (slope * p.1 + intercept)],
            acc.2 + (slope * p.1 + intercept - p.2) ^ 2))
        (cmds0, 0)
    else (cmds0, 0)
  let cmds1 := if show_error_on_plot then acc.1 ++ [DrawCmd.textNote acc.2] else acc.1
  ({ st with axisCmds := cmds1 }, acc.2)

/-- Effect of `plot_least_squares_fit` (source lines 100–135): reads the two
columns, calls `np.polyfit(·, ·, 1)`, draws the fitted line over x ∈ [0, 12.5]
and optionally the equation text.  Here `none` models a raising `polyfit`. -/
def plot_least_squares_fit (st : PlotState) (show_equation : Bool) :
    Option PlotState :=
  (polyfit1 st.flightTimeInHours st.totalFare).map fun mb =>
    let cmds := st.axisCmds ++
      [DrawCmd.lineSeg [0, 25 / 2] [mb.1 * 0 + mb.2, mb.1 * (25 / 2) + mb.2]]
    { st with axisCmds :=
        if show_equation then cmds ++ [DrawCmd.textEquation mb.1 mb.2] else cmds }


/-! ### Helper lemmas about the residual sum -/

lemma foldl_add_map (l : List (ℚ × ℚ)) (f : ℚ × ℚ → ℚ) (a : ℚ) :
    l.foldl (fun t p => t + f p) a = a + (l.map f).sum := by
  induction l generalizing a with
  | nil => simp
  | cons p t ih => simp [ih]; ring

lemma residualTotal_eq_sum (xs ys : List ℚ) (s i : ℚ) :
    residualTotal xs ys s i =
      ((xs.zip ys).map (fun p => (s * p.1 + i - p.2) ^ 2)).sum := by
  simpa [residualTotal] using foldl_add_map (xs.zip ys) (fun p => (s * p.1 + i - p.2) ^ 2) 0

lemma resSum_expand (ps : List (ℚ × ℚ)) (m b : ℚ) :
    (ps.map (fun p => (m * p.1 + b - p.2) ^ 2)).sum =
      (ps.map (fun p => p.1 ^ 2)).sum * m ^ 2
        + 2 * (ps.map (fun p => p.1)).sum * m * b
        + (ps.length : ℚ) * b ^ 2
        - 2 * (ps.map (fun p => p.1 * p.2)).sum * m
        - 2 * (ps.map (fun p => p.2)).sum * b
        + (ps.map (fun p => p.2 ^ 2)).sum := by
  induction ps with
  | nil => simp
  | cons p t ih =>
      simp only [List.map_cons, List.sum_cons, List.length_cons, ih]
      push_cast
      ring

/-! ### Helper lemmas about the least-squares denominator -/

lemma sum_sq_shift (x : ℚ) (t : List ℚ) :
    (t.map (fun u => (x - u) ^ 2)).sum =
      (t.length : ℚ) * x ^ 2 - 2 * x * t.sum + (t.map (fun u => u ^ 2)).sum := by
  induction t with
  | nil => simp
  | cons u t ih =>
      simp only [List.map_cons, List.sum_cons, List.length_cons, ih]
      push_cast
      ring

lemma shift_sum_nonneg (x : ℚ) (t : List ℚ) :
    0 ≤ (t.map (fun u => (x - u) ^ 2)).sum := by
  refine List.sum_nonneg ?_
  intro z hz
  obtain ⟨u, _, rfl⟩ := List.mem_map.mp hz
  positivity

lemma lsDenom_cons (x : ℚ) (t : List ℚ) :
    lsDenom (x :: t) = lsDenom t + (t.map (fun u => (x - u) ^ 2)).sum := by
  simp only [lsDenom, List.map_cons, List.sum_cons, List.length_cons, sum_sq_shift]
  push_cast
  ring

lemma lsDenom_nonneg (xs : List ℚ) : 0 ≤ lsDenom xs := by
  induction xs with
  | nil => simp [lsDenom]
  | cons x t ih =>
      rw [lsDenom_cons]
      have h := shift_sum_nonneg x t
      linarith

lemma lsDenom_pos (xs : List ℚ) (a b : ℚ) (ha : a ∈ xs) (hb : b ∈ xs)
    (hab : a ≠ b) : 0 < lsDenom xs := by
  induction xs with
  | nil => cases ha
  | cons x t ih =>
      rw [lsDenom_cons]
      have hnn := lsDenom_nonneg t
      have hsq : ∀ c : ℚ, c ∈ t → (x - c) ^ 2 ≤ (t.map (fun u => (x - u) ^ 2)).sum := by
        intro c hc
        refine List.single_le_sum ?_ _ (List.mem_map.mpr ⟨c, hc, rfl⟩)
        intro z hz
        obtain ⟨u, _, rfl⟩ := List.mem_map.mp hz
        positivity
      rcases List.mem_cons.mp ha with rfl | ha'
      · rcases List.mem_cons.mp hb with rfl | hb'
        · exact absurd rfl hab
        · have h1 := hsq b hb'
          have h2 : 0 < (a - b) ^ 2 := by
            have : a - b ≠ 0 := sub_ne_zero.mpr hab
            positivity
          linarith
      · rcases List.mem_cons.mp hb with rfl | hb'
        · have h1 := hsq a ha'
          have h2 : 0 < (b - a) ^ 2 := by
            have : b - a ≠ 0 := sub_ne_zero.mpr (Ne.symm hab)
            positivity
          linarith
        · have h1 := ih ha' hb'
          have h2 := shift_sum_nonneg x t
          linarith

/-! ### Bridging zipped-pair sums to the column sums used by the fit -/

lemma zip_map_fst (xs ys : List ℚ) (h : xs.length = ys.length) :
    (xs.zip ys).map (fun p => p.1) = xs :=
  List.map_fst_zip xs ys (le_of_eq h)

lemma zip_map_snd (xs ys : List ℚ) (h : xs.length = ys.length) :
    (xs.zip ys).map (fun p => p.2) = ys :=
  List.map_snd_zip xs ys (le_of_eq h.symm)

lemma zip_map_fst_sq (xs ys : List ℚ) (h : xs.length = ys.length) :
    (xs.zip ys).map (fun p => p.1 ^ 2) = xs.map (fun x => x ^ 2) := by
  rw [show (fun p : ℚ × ℚ => p.1 ^ 2) = (fun x : ℚ => x ^ 2) ∘ (fun p : ℚ × ℚ => p.1) from rfl,
    ← List.map_map, zip_map_fst xs ys h]

lemma zip_length (xs ys : List ℚ) (h : xs.length = ys.length) :
    (xs.zip ys).length = xs.length := by
  rw [List.length_zip, h, min_self]

/-! ### The full-rank branch of the fit -/

lemma polyfit1_full_rank (xs ys : List ℚ) (hne : xs ≠ [])
    (hlen : xs.length = ys.length) (hd : lsDenom xs ≠ 0) :
    polyfit1 xs ys = some (olsClosedForm xs ys) := by
  have h0 : ¬(xs.length = 0 ∨ xs.length ≠ ys.length) := by
    push_neg
    exact ⟨fun h => hne (List.length_eq_zero.mp h), hlen⟩
  have hd' : (xs.length : ℚ) * (xs.map (fun x => x ^ 2)).sum - xs.sum ^ 2 ≠ 0 := hd
  simp only [polyfit1, olsClosedForm, if_neg h0, if_pos hd']

/-! ### Minimality of the closed-form solution among all lines -/

lemma quad_min (n sx sy sxx sxy m0 b0 m b : ℚ)
    (hn : 0 < n) (hd : 0 < n * sxx - sx ^ 2)
    (hm : m0 = (n * sxy - sx * sy) / (n * sxx - sx ^ 2))
    (hb : b0 = (sy - m0 * sx) / n) :
    sxx * m0 ^ 2 + 2 * sx * m0 * b0 + n * b0 ^ 2 - 2 * sxy * m0 - 2 * sy * b0 ≤
      sxx * m ^ 2 + 2 * sx * m * b + n * b ^ 2 - 2 * sxy * m - 2 * sy * b := by
  have hn' : n ≠ 0 := ne_of_gt hn
  have hd' : n * sxx - sx ^ 2 ≠ 0 := ne_of_gt hd
  have ne2 : sx * m0 + n * b0 = sy := by
    rw [hb]; field_simp; ring
  have ne1 : sxx * m0 + sx * b0 = sxy := by
    rw [hb, hm]; field_simp; ring
  have key : n * ((sxx * m ^ 2 + 2 * sx * m * b + n * b ^ 2 - 2 * sxy * m - 2 * sy * b)
      - (sxx * m0 ^ 2 + 2 * sx * m0 * b0 + n * b0 ^ 2 - 2 * sxy * m0 - 2 * sy * b0)) =
      (sx * (m - m0) + n * (b - b0)) ^ 2 + (n * sxx - sx ^ 2) * (m - m0) ^ 2 := by
    linear_combination (2 * n * (m - m0)) * ne1 + (2 * n * (b - b0)) * ne2
  nlinarith [key, sq_nonneg (sx * (m - m0) + n * (b - b0)), sq_nonneg (m - m0),
    mul_nonneg (le_of_lt hd) (sq_nonneg (m - m0))]

set_option maxHeartbeats 1000000 in
lemma polyfit1_optimal (xs ys : List ℚ) (hlen : xs.length = ys.length)
    (a b : ℚ) (ha : a ∈ xs) (hb : b ∈ xs) (hab : a ≠ b) :
    ∃ m0 b0, polyfit1 xs ys = some (m0, b0) ∧
      ∀ m c, residualTotal xs ys m0 b0 ≤ residualTotal xs ys m c := by
  have hne : xs ≠ [] := by
    intro h; subst h; cases ha
  have hdpos : 0 < lsDenom xs := lsDenom_pos xs a b ha hb hab
  have hnpos : 0 < (xs.length : ℚ) := by
    have h := List.length_pos.mpr hne
    exact_mod_cast h
  refine ⟨(olsClosedForm xs ys).1, (olsClosedForm xs ys).2, ?_, ?_⟩
  · rw [polyfit1_full_rank xs ys hne hlen (ne_of_gt hdpos)]
  · intro m c
    rw [residualTotal_eq_sum, residualTotal_eq_sum, resSum_expand, resSum_expand,
      zip_map_fst xs ys hlen, zip_map_snd xs ys hlen, zip_map_fst_sq xs ys hlen,
      zip_length xs ys hlen]
    have hm : (olsClosedForm xs ys).1 =
        ((xs.length : ℚ) * ((xs.zip ys).map (fun p => p.1 * p.2)).sum - xs.sum * ys.sum) /
          ((xs.length : ℚ) * (xs.map (fun x => x ^ 2)).sum - xs.sum ^ 2) := rfl
    have hbeq : (olsClosedForm xs ys).2 =
        (ys.sum - (olsClosedForm xs ys).1 * xs.sum) / (xs.length : ℚ) := rfl
    have hq := quad_min (xs.length : ℚ) xs.sum ys.sum (xs.map (fun x => x ^ 2)).sum
      ((xs.zip ys).map (fun p => p.1 * p.2)).sum (olsClosedForm xs ys).1
      (olsClosedForm xs ys).2 m c hnpos hdpos hm hbeq
    linarith

/-! ### The rank-deficient branch of the fit -/

lemma sum_of_all_eq (xs : List ℚ) (a : ℚ) (h : ∀ x ∈ xs, x = a) :
    xs.sum = (xs.length : ℚ) * a := by
  induction xs with
  | nil => simp
  | cons x t ih =>
      have hx : x = a := h x (List.mem_cons_self x t)
      have ht := ih (fun u hu => h u (List.mem_cons_of_mem x hu))
      simp only [List.sum_cons, List.length_cons, hx, ht]
      push_cast
      ring

lemma sum_sq_of_all_eq (xs : List ℚ) (a : ℚ) (h : ∀ x ∈ xs, x = a) :
    (xs.map (fun x => x ^ 2)).sum = (xs.length : ℚ) * a ^ 2 := by
  induction xs with
  | nil => simp
  | cons x t ih =>
      have hx : x = a := h x (List.mem_cons_self x t)
      have ht := ih (fun u hu => h u (List.mem_cons_of_mem x hu))
      simp only [List.map_cons, List.sum_cons, List.length_cons, hx, ht]
      push_cast
      ring

lemma polyfit1_degenerate (xs ys : List ℚ) (a : ℚ) (hne : xs ≠ [])
    (hlen : xs.length = ys.length) (hall : ∀ x ∈ xs, x = a) (ha : a ≠ 0) :
    polyfit1 xs ys =
      some ((ys.sum / (xs.length : ℚ)) / (2 * a), (ys.sum / (xs.length : ℚ)) / 2) := by
  have h0 : ¬(xs.length = 0 ∨ xs.length ≠ ys.length) := by
    push_neg
    exact ⟨fun h => hne (List.length_eq_zero.mp h), hlen⟩
  have hn : (xs.length : ℚ) ≠ 0 := by
    have h := List.length_pos.mpr hne
    positivity
  have hsx : xs.sum = (xs.length : ℚ) * a := sum_of_all_eq xs a hall
  have hsxx : (xs.map (fun x => x ^ 2)).sum = (xs.length : ℚ) * a ^ 2 :=
    sum_sq_of_all_eq xs a hall
  have hdzero : ¬((xs.length : ℚ) * (xs.map (fun x => x ^ 2)).sum - xs.sum ^ 2 ≠ 0) := by
    push_neg
    rw [hsx, hsxx]
    ring
  have hsxne : xs.sum ≠ 0 := by
    rw [hsx]
    exact mul_ne_zero hn ha
  simp only [polyfit1, if_neg h0, if_neg hdzero, if_pos hsxne]
  rw [hsx]
  have hquot : (xs.length : ℚ) * a / (xs.length : ℚ) = a := by
    field_simp
  rw [hquot]

/-! ### Non-negativity and exact-fit characterisation of the residual sum -/

lemma sq_residual_sum_nonneg (ps : List (ℚ × ℚ)) (s i : ℚ) :
    0 ≤ (ps.map (fun p => (s * p.1 + i - p.2) ^ 2)).sum := by
  refine List.sum_nonneg ?_
  intro z hz
  obtain ⟨p, _, rfl⟩ := List.mem_map.mp hz
  positivity

lemma sq_residual_sum_eq_zero_iff (ps : List (ℚ × ℚ)) (s i : ℚ) :
    (ps.map (fun p => (s * p.1 + i - p.2) ^ 2)).sum = 0 ↔
      ∀ p ∈ ps, s * p.1 + i = p.2 := by
  induction ps with
  | nil => simp
  | cons p t ih =>
      simp only [List.map_cons, List.sum_cons, List.mem_cons]
      have h1 : 0 ≤ (s * p.1 + i - p.2) ^ 2 := sq_nonneg _
      have h2 := sq_residual_sum_nonneg t s i
      constructor
      · intro h
        have hz1 : (s * p.1 + i - p.2) ^ 2 = 0 := by linarith
        have hz2 : (t.map (fun p => (s * p.1 + i - p.2) ^ 2)).sum = 0 := by linarith
        have he : s * p.1 + i = p.2 := by
          have h3 : s * p.1 + i - p.2 = 0 := by
            exact pow_eq_zero_iff (two_ne_zero) |>.mp hz1
          linarith
        intro q hq
        rcases hq with rfl | hq'
        · exact he
        · exact (ih.mp hz2) q hq'
      · intro h
        have he : s * p.1 + i - p.2 = 0 := by
          have h3 := h p (Or.inl rfl)
          linarith
        rw [he]
        simpa using ih.mpr (fun q hq => h q (Or.inr hq))

/-! ### Agreement between the stateful model and the numeric projection -/

lemma foldl_pair_snd (l : List (ℚ × ℚ)) (f : ℚ × ℚ → ℚ)
    (g : List DrawCmd → ℚ × ℚ → List DrawCmd) (c0 : List DrawCmd) (a0 : ℚ) :
    (l.foldl (fun acc p => (g acc.1 p, acc.2 + f p)) (c0, a0)).2 =
      a0 + (l.map f).sum := by
  induction l generalizing c0 a0 with
  | nil => simp
  | cons p t ih => simp [ih]; ring

lemma plot_best_fit_line_full_snd (st : PlotState) (s i : ℚ) (ec se : Bool) :
    (plot_best_fit_line_full st s i ec se).2 =
      plot_best_fit_line st.flightTimeInHours st.totalFare s i ec := by
  cases ec with
  | false => simp [plot_best_fit_line_full, plot_best_fit_line]
  | true =>
      have h := foldl_pair_snd (st.flightTimeInHours.zip st.totalFare)
        (fun p => (s * p.1 + i - p.2) ^ 2)
        (fun c p => c ++ [DrawCmd.vlines p.1 p.2 (s * p.1 + i)])
        (st.axisCmds ++
          [DrawCmd.lineSeg [0, 25 / 2] [s * 0 + i, s * (25 / 2) + i]]) 0
      simp only [plot_best_fit_line_full, plot_best_fit_line, if_true]
      rw [h, residualTotal_eq_sum]
      ring

/-! ## Claim theorems -/

/-- C1: For every sample set with at least 2 distinct x values, the line
(slope, intercept) returned by the least-squares fit has a total squared error
(as computed by the residual evaluator on the same samples) less than or equal
to the total squared error of any other candidate line on those samples. -/
theorem fit_minimizes_total_squared_error (xs ys : List ℚ) (a b : ℚ)
    (hlen : xs.length = ys.length) (ha : a ∈ xs) (hb : b ∈ xs) (hab : a ≠ b) :
    ∃ m0 b0, polyfit1 xs ys = some (m0, b0) ∧
      ∀ m c, residualTotal xs ys m0 b0 ≤ residualTotal xs ys m c :=
  polyfit1_optimal xs ys hlen a b ha hb hab

/-- Witness for C1 at the samples [(1,70),(2,95)]. -/
theorem fit_minimizes_total_squared_error_witness :
    ∃ m0 b0, polyfit1 [1, 2] [70, 95] = some (m0, b0) ∧
      ∀ m c, residualTotal [1, 2] [70, 95] m0 b0 ≤ residualTotal [1, 2] [70, 95] m c :=
  fit_minimizes_total_squared_error [1, 2] [70, 95] 1 2 (by decide) (by decide)
    (by decide) (by decide)

/-- C2: For every sample set with at least 2 distinct x values, the slope and
intercept computed by the fit operation equal the closed-form ordinary least
squares solution slope = (n·Σxy − Σx·Σy) / (n·Σx² − (Σx)²),
intercept = (Σy − slope·Σx) / n. -/
theorem fit_eq_closed_form_ols (xs ys : List ℚ) (a b : ℚ)
    (hlen : xs.length = ys.length) (ha : a ∈ xs) (hb : b ∈ xs) (hab : a ≠ b) :
    polyfit1 xs ys = some (olsClosedForm xs ys) := by
  have hne : xs ≠ [] := by
    intro h; subst h; cases ha
  exact polyfit1_full_rank xs ys hne hlen (ne_of_gt (lsDenom_pos xs a b ha hb hab))

/-- Witness for C2 at the samples [(0,50),(5,150),(10,250)]. -/
theorem fit_eq_closed_form_ols_witness :
    polyfit1 [0, 5, 10] [50, 150, 250] = some (olsClosedForm [0, 5, 10] [50, 150, 250]) :=
  fit_eq_closed_form_ols [0, 5, 10] [50, 150, 250] 0 5 (by decide) (by decide)
    (by decide) (by decide)

/-- C3: For every sample set and every line, the total squared error returned
by the residual evaluator is non-negative, and it equals 0 if and only if
every sample point lies exactly on the line. -/
theorem residualTotal_nonneg_and_zero_iff (xs ys : List ℚ) (s i : ℚ) :
    0 ≤ residualTotal xs ys s i ∧
      (residualTotal xs ys s i = 0 ↔ ∀ p ∈ xs.zip ys, s * p.1 + i = p.2) := by
  rw [residualTotal_eq_sum]
  exact ⟨sq_residual_sum_nonneg (xs.zip ys) s i, sq_residual_sum_eq_zero_iff (xs.zip ys) s i⟩

/-- C4, counterexample: on the degenerate samples [(1,100),(1,200)] (identical
x values) the fit does not fail with a `DegenerateInput` error; `np.polyfit`
only emits a `RankWarning` and returns the minimum-norm solution (75, 75). -/
theorem fit_identical_x_counterexample :
    polyfit1 [1, 1] [100, 200] = some (75, 75) := by
  norm_num [polyfit1]

/-- C4, amended: for every nonempty sample set in which all x values are
identical and nonzero, the fit does not fail: it returns the minimum-norm
least-squares line (slope ȳ/(2a), intercept ȳ/2). -/
theorem fit_identical_x_returns_min_norm_line (xs ys : List ℚ) (a : ℚ)
    (hne : xs ≠ []) (hlen : xs.length = ys.length) (hall : ∀ x ∈ xs, x = a)
    (ha : a ≠ 0) :
    polyfit1 xs ys =
      some ((ys.sum / (xs.length : ℚ)) / (2 * a), (ys.sum / (xs.length : ℚ)) / 2) :=
  polyfit1_degenerate xs ys a hne hlen hall ha

/-- Witness for the amended C4 at the samples [(1,100),(1,200)]. -/
theorem fit_identical_x_returns_min_norm_line_witness :
    polyfit1 [1, 1] [100, 200] =
      some ((([100, 200] : List ℚ).sum / (([1, 1] : List ℚ).length : ℚ)) / (2 * 1),
        (([100, 200] : List ℚ).sum / (([1, 1] : List ℚ).length : ℚ)) / 2) :=
  fit_identical_x_returns_min_norm_line [1, 1] [100, 200] 1 (by decide) (by decide)
    (by decide) (by decide)

/-- C5: For every sample set and every line, the residual evaluator computes,
for each sample (x, y), the residual slope·x + intercept − y, and returns as
total squared error the sum of the squared residuals (a sum, not a mean). -/
theorem residualTotal_is_sum_of_squared_residuals (xs ys : List ℚ) (s i : ℚ) :
    residualTotal xs ys s i =
      ((xs.zip ys).map (fun p => (s * p.1 + i - p.2) ^ 2)).sum :=
  residualTotal_eq_sum xs ys s i

/-- C6, counterexample: on the empty sample set the residual evaluator does
not fail with an `InvalidInput` error; the loop body never runs and the
initial numeric total 0 is returned. -/
theorem evaluate_empty_counterexample : residualTotal [] [] 20 50 = 0 := rfl

/-- C6, amended: for every line, the residual evaluator applied to the empty
sample set returns the numeric total 0 (the empty sum); the code has no
`InvalidInput` error path. -/
theorem evaluate_empty_returns_zero (s i : ℚ) (ec : Bool) :
    residualTotal [] [] s i = 0 ∧ plot_best_fit_line [] [] s i ec = 0 := by
  refine ⟨rfl, ?_⟩
  cases ec <;> rfl

/-- C7, counterexample: on the degenerate samples [(2,100),(2,200)], where no
meaningful slope exists, the core does not fail with an error: the fit
returns the line (37.5, 75). -/
theorem core_returns_line_instead_of_error_counterexample :
    polyfit1 [2, 2] [100, 200] = some (75 / 2, 75) := by
  norm_num [polyfit1]

/-- C7, amended: the core surfaces no error kinds: on every nonempty,
well-formed sample set whose x values are all identical and nonzero (an input
with no meaningful fit) the fit operation still returns a line rather than
failing. -/
theorem fit_returns_line_on_degenerate (xs ys : List ℚ) (a : ℚ) (hne : xs ≠ [])
    (hlen : xs.length = ys.length) (hall : ∀ x ∈ xs, x = a) (ha : a ≠ 0) :
    (polyfit1 xs ys).isSome = true := by
  rw [polyfit1_degenerate xs ys a hne hlen hall ha]
  rfl

/-- Witness for the amended C7 at the samples [(2,100),(2,200)]. -/
theorem fit_returns_line_on_degenerate_witness :
    (polyfit1 [2, 2] [100, 200]).isSome = true :=
  fit_returns_line_on_degenerate [2, 2] [100, 200] 2 (by decide) (by decide)
    (by decide) (by decide)

/-- C8: The fit operation is deterministic: two calls of fit on the same
sample set yield identical slope and intercept. -/
theorem fit_deterministic (xs ys xs' ys' : List ℚ) (hx : xs = xs')
    (hy : ys = ys') : polyfit1 xs ys = polyfit1 xs' ys' := by
  rw [hx, hy]

/-- Witness for C8 at the samples [(1,70),(2,90)]. -/
theorem fit_deterministic_witness :
    polyfit1 [1, 2] [70, 90] = polyfit1 [1, 2] [70, 90] :=
  fit_deterministic [1, 2] [70, 90] [1, 2] [70, 90] rfl rfl

/-- C9: For every sample set and every line, `plot_best_fit_line` called with
error_check=False returns a total squared error of exactly 0; with
error_check=True it returns the residual evaluator's total on the data. -/
theorem plot_best_fit_line_error_check_flag (st : PlotState) (s i : ℚ)
    (se : Bool) (xs ys : List ℚ) :
    (plot_best_fit_line_full st s i false se).2 = 0 ∧
      plot_best_fit_line xs ys s i false = 0 ∧
      (plot_best_fit_line_full st s i true se).2 =
        residualTotal st.flightTimeInHours st.totalFare s i := by
  refine ⟨?_, rfl, ?_⟩
  · rw [plot_best_fit_line_full_snd]
    rfl
  · rw [plot_best_fit_line_full_snd]
    rfl

/-- C10: Every operation leaves the input sample data unchanged: after
`plot_flights_scatter_data`, `plot_best_fit_line` or `plot_least_squares_fit`,
the 'flightTimeInHours' and 'totalFare' columns hold the same values as
before the call. -/
theorem operations_preserve_dataframe_columns (st : PlotState) (s i : ℚ)
    (ec se sq : Bool) :
    dataCols (plot_flights_scatter_data st) = dataCols st ∧
      dataCols (plot_best_fit_line_full st s i ec se).1 = dataCols st ∧
      (plot_least_squares_fit st sq).map dataCols =
        (plot_least_squares_fit st sq).map (fun _ => dataCols st) := by
  refine ⟨rfl, rfl, ?_⟩
  cases h : polyfit1 st.flightTimeInHours st.totalFare with
  | none => simp [plot_least_squares_fit, h]
  | some mb => simp [plot_least_squares_fit, h, dataCols]

end FlightFit
